import Mathlib

/-!
Verification of the asynchronous text-to-audio job pipeline of `src/server.js`
(the variant with per-segment retry logic, whose line numbers the claims cite).

Strings are modelled as `List Char` (JavaScript string length is modelled as the
number of characters).  Audio byte buffers are `List Nat`.  The external
speech-synthesis provider is modelled as an oracle mapping a segment text and a
1-based attempt number to either audio bytes or a provider error detail string.
-/

namespace Manhwa

abbrev Str := List Char
abbrev Bytes := List Nat

/-! ## Segmenter: `chunkText(text, maxLength = 2000)` (src/server.js:214-227) -/

/-- Model of the character class `[.!?]` used by the sentence regex
`/[^.!?]+[.!?]+|[^.!?]+$/g` in `chunkText`. -/
def isTerm (c : Char) : Bool := c == '.' || c == '!' || c == '?'

/-- Model of `text.match(/[^.!?]+[.!?]+|[^.!?]+$/g)`, written as a left-to-right
scan.  Mode `inTerm = false` accumulates a run of non-terminal characters into
`acc` (an empty `acc` means the engine is between matches, where characters of
`[.!?]` cannot start a match and are skipped); mode `inTerm = true` greedily
accumulates the trailing run of terminal punctuation of the current match.
The result is the list of matches, `[]` when the regex finds none (JS `null`). -/
def scanSent : List Char → Bool → List Char → List (List Char)
  | [], _, acc => if acc.isEmpty then [] else [acc]
  | c :: rest, inTerm, acc =>
      if inTerm then
        if isTerm c then scanSent rest true (acc ++ [c])
        else acc :: scanSent rest false [c]
      else
        if isTerm c then
          if acc.isEmpty then scanSent rest false []
          else scanSent rest true (acc ++ [c])
        else scanSent rest false (acc ++ [c])

/-- Model of `const sentences = text.match(...) || [text]`. -/
def sentencesOf (text : Str) : List Str :=
  match scanSent text false [] with
  | [] => [text]
  | s :: rest => s :: rest

/-- Model of the JS whitespace class for `String.trim` (the pipeline itself only
ever injects `' '`). -/
def isSpace (c : Char) : Bool := c == ' ' || c == '\t' || c == '\n' || c == '\r'

def trimStart (l : Str) : Str := l.dropWhile isSpace

def trimEnd (l : Str) : Str := (l.reverse.dropWhile isSpace).reverse

/-- Model of JS `String.prototype.trim`. -/
def jsTrim (l : Str) : Str := trimStart (trimEnd l)

/-- The non-whitespace characters of a string, in order ("content up to
whitespace"). -/
def content (l : Str) : Str := l.filter (fun c => !isSpace c)

/-- The accumulation loop of `chunkText`: for each sentence, if appending it
would exceed `maxLength`, flush `currentChunk.trim()` and restart the buffer;
afterwards flush a final non-empty trimmed buffer. -/
def chunkLoop (ml : Nat) : List Str → Str → List Str
  | [], cur => if (jsTrim cur).isEmpty then [] else [jsTrim cur]
  | s :: rest, cur =>
      if ml < cur.length + s.length then jsTrim cur :: chunkLoop ml rest (s ++ [' '])
      else chunkLoop ml rest (cur ++ s ++ [' '])

/-- Model of `chunkText(text, maxLength)` (`maxLength` defaults to 2000 at the
single call site in `processAudioJob`). -/
def chunkText (text : Str) (ml : Nat) : List Str :=
  chunkLoop ml (sentencesOf text) []

/-! ## Data model: job records, server state (src/server.js:211-212, 295-316) -/

inductive Status
  | pending
  | processing
  | completed
  | failed
deriving DecidableEq, Repr

structure JobResult where
  filename : Str
  audioUrl : Str
  /-- `durationEstimate` is `(script.length / 15 / 60).toFixed(1)` minutes; the
  model records the script length the estimate is computed from (decimal
  formatting of the heuristic is not needed by any claim). -/
  scriptLength : Nat
deriving DecidableEq, Repr

structure Job where
  id : Str
  status : Status
  progress : Nat
  createdAt : Nat
  result : Option JobResult
  error : Option Str
deriving DecidableEq, Repr

/-- The process-wide state: the in-memory job store `jobs` (a JS object keyed
by job id, kept in insertion order) and the names of the files in `publicDir`. -/
structure ServerState where
  jobs : List (Str × Job)
  files : List Str
deriving DecidableEq, Repr

/-- Model of `jobs[id]`. -/
def lookupJob (st : ServerState) (id : Str) : Option Job :=
  (st.jobs.find? (fun p => p.1 == id)).map (·.2)

/-- Model of mutating the record object held under key `id`. -/
def updateJob (st : ServerState) (id : Str) (j : Job) : ServerState :=
  { st with jobs := st.jobs.map (fun p => if p.1 == id then (id, j) else p) }

/-- `audio-<jobId>.mp3`, the generated-artifact name for a job. -/
def audioName (id : Str) : Str := "audio-".toList ++ id ++ ".mp3".toList

/-- `file.startsWith('audio-') && file.endsWith('.mp3')`: membership in the
generated artifact class (src/server.js:374). -/
def isGeneratedName (f : Str) : Bool :=
  "audio-".toList.isPrefixOf f && ".mp3".toList.isSuffixOf f

/-- The fixed user-safe message assigned to `job.error` on failure
(src/server.js:397). -/
def jobFailedMessage : Str :=
  "Connection failed. Please check your internet or try again.".toList

/-! ## Retrying segment synthesizer (src/server.js:336-363)

The provider is an oracle `f : Nat → Except Str Bytes` for one segment:
attempt number (1-based, as counted by the JS `attempts` variable) to either
the buffered audio bytes or a provider error detail. -/

/-- Model of `Math.round(num/den)` for non-negative operands under exact
rational arithmetic (round half away from zero): `⌊num/den + 1/2⌋`. -/
def jsRound (num den : Nat) : Nat := (2 * num + den) / (2 * den)

/-- Model of the `while (!success && attempts < 3)` retry loop for one segment.
`attempts` mirrors the JS counter; `fuel` (called with 3) only bounds the
recursion and is never exhausted from `attempts = 0`.  Returns the bytes (or
`none` when the third failure is rethrown) paired with the final value of
`attempts`. -/
def retryAttempts (f : Nat → Except Str Bytes) : Nat → Nat → Option Bytes × Nat
  | attempts, 0 => (none, attempts)
  | attempts, fuel + 1 =>
      if attempts < 3 then
        match f (attempts + 1) with
        | .ok b => (some b, attempts + 1)
        | .error _ =>
            if 3 ≤ attempts + 1 then (none, attempts + 1)
            else retryAttempts f (attempts + 1) fuel
      else (none, attempts)

/-- Events observable on a job record and the artifact directory, in the order
the corresponding side effects happen in `processAudioJob`. -/
inductive JobEvent
  | statusSet (s : Status)
  | progressSet (p : Nat)
  | fileDeleted (name : Str)
  | fileWritten (name : Str)
  | errorSet (msg : Str)
deriving DecidableEq, Repr

/-- The segment loop of `processAudioJob` (src/server.js:332-364): before each
segment `i` of `n` it sets `job.progress = Math.round(i / n * 100)`, then runs
the retry loop.  Returns the collected buffers (`none` if a segment exhausted
its retries), the emitted events, and the per-segment final `attempts` values. -/
def segmentLoop (synth : Str → Nat → Except Str Bytes) (n : Nat) :
    List Str → Nat → Option (List Bytes) × List JobEvent × List Nat
  | [], _ => (some [], [], [])
  | c :: rest, i =>
      let pEvent := JobEvent.progressSet (jsRound (100 * i) n)
      match retryAttempts (synth c) 0 3 with
      | (some b, a) =>
          match segmentLoop synth n rest (i + 1) with
          | (some bs, evs, log) => (some (b :: bs), pEvent :: evs, a :: log)
          | (none, evs, log) => (none, pEvent :: evs, a :: log)
      | (none, a) => (none, [pEvent], [a])

/-- Model of `processAudioJob(jobId, script, voice)` (src/server.js:318-399).
The TTS metadata initialization and the voice are absorbed into the oracle
`synth`; file contents are not tracked (only names matter to the claims).
Returns the final state, the ordered event list, and the per-segment attempt
log.  If the job id is absent the JS code would throw on `job.status = ...`;
that situation is unreachable through the API and is modelled as a no-op. -/
def processAudioJob (synth : Str → Nat → Except Str Bytes) (st : ServerState)
    (jobId script : Str) : ServerState × List JobEvent × List Nat :=
  match lookupJob st jobId with
  | none => (st, [], [])
  | some job0 =>
      let job1 := { job0 with status := Status.processing }
      let st1 := updateJob st jobId job1
      let chunks := chunkText script 2000
      match segmentLoop synth chunks.length chunks 0 with
      | (some _bufs, evs, log) =>
          let fileName := audioName jobId
          let deleted := st1.files.filter (fun f => isGeneratedName f)
          let kept := st1.files.filter (fun f => !isGeneratedName f)
          let job2 := { job1 with
            status := Status.completed
            progress := 100
            result := some { filename := fileName, audioUrl := '/' :: fileName,
                             scriptLength := script.length } }
          let st2 := updateJob { st1 with files := kept ++ [fileName] } jobId job2
          (st2,
            JobEvent.statusSet Status.processing :: evs
              ++ deleted.map JobEvent.fileDeleted
              ++ [JobEvent.fileWritten fileName, JobEvent.statusSet Status.completed,
                  JobEvent.progressSet 100],
            log)
      | (none, evs, log) =>
          let job2 := { job1 with status := Status.failed, error := some jobFailedMessage }
          (updateJob st1 jobId job2,
            JobEvent.statusSet Status.processing :: evs
              ++ [JobEvent.statusSet Status.failed, JobEvent.errorSet jobFailedMessage],
            log)

/-- The successive values assigned to `job.progress` during a run, read off
the event list. -/
def progressValues (evs : List JobEvent) : List Nat :=
  evs.filterMap (fun e => match e with | JobEvent.progressSet p => some p | _ => none)

/-! ## Reclaimer: `cleanup` (src/server.js:231-248) -/

def ONE_HOUR : Nat := 3600 * 1000

/-- Model of the periodic `cleanup` sweep: every job whose `createdAt` is more
than an hour older than `now` has its `audio-<id>.mp3` file (if present) and
its record deleted.  `now - createdAt` is non-negative truncated subtraction;
a `createdAt` in the future compares as not expired, as in JS. -/
def cleanup (st : ServerState) (now : Nat) : ServerState :=
  let expiredIds :=
    (st.jobs.filter (fun p => decide (ONE_HOUR < now - p.2.createdAt))).map (·.1)
  { jobs := st.jobs.filter (fun p => !decide (ONE_HOUR < now - p.2.createdAt)),
    files := st.files.filter (fun f => !expiredIds.any (fun id => f == audioName id)) }

/-! ## HTTP boundary: `/download/:filename` and `/start-generation`
(src/server.js:252-262, 295-310) -/

inductive DlResponse
  | download (path : Str)
  | notFound
deriving DecidableEq, Repr

/-- Model of JS `String.prototype.includes`: `strIncludes pat l` holds when
`pat` occurs as a contiguous substring of `l`. -/
def strIncludes (pat : Str) : Str → Bool
  | [] => pat.isEmpty
  | c :: rest => pat.isPrefixOf (c :: rest) || strIncludes pat rest

def publicDirPath : Str := "public".toList

/-- Model of `path.join(publicDir, filename)`; the claims never depend on the
normalized shape of the joined path, only on whether the filesystem is hit. -/
def pathJoin (a b : Str) : Str := a ++ ['/'] ++ b

/-- Model of the `GET /download/:filename` handler.  The second component logs
every path whose existence is checked on the filesystem: the JS guard
`if (filename.includes('..') || !fs.existsSync(filePath))` short-circuits, so a
traversal filename is answered 404 with no `existsSync` call. -/
def downloadRoute (fsExists : Str → Bool) (filename : Str) : DlResponse × List Str :=
  let filePath := pathJoin publicDirPath filename
  if strIncludes "..".toList filename then (DlResponse.notFound, [])
  else if fsExists filePath then (DlResponse.download filePath, [filePath])
  else (DlResponse.notFound, [filePath])

inductive StartResponse
  | ok (jobId : Str)
  | badRequest (msg : Str)
deriving DecidableEq, Repr

def scriptRequiredMessage : Str := "Script required".toList

/-- Model of the `POST /start-generation` handler up to its synchronous
response: `if (!script) return 400` (JS falsiness: an absent script and the
empty string are both rejected), otherwise a pending job record is registered
under a fresh id.  The detached `processAudioJob` task is modelled separately. -/
def startGeneration (st : ServerState) (script : Option Str) (_voice : Option Str)
    (newId : Str) (now : Nat) : StartResponse × ServerState :=
  match script with
  | none => (StartResponse.badRequest scriptRequiredMessage, st)
  | some s =>
      if s.isEmpty then (StartResponse.badRequest scriptRequiredMessage, st)
      else
        let job : Job := { id := newId, status := Status.pending, progress := 0,
                           createdAt := now, result := none, error := none }
        (StartResponse.ok newId, { st with jobs := st.jobs ++ [(newId, job)] })

/-! ## Concrete fixtures used by witnesses -/

def wJob : Job :=
  { id := ['j'], status := Status.pending, progress := 0, createdAt := 0,
    result := none, error := none }

def wSt : ServerState := { jobs := [(['j'], wJob)], files := [] }

def wFailSynth : Str → Nat → Except Str Bytes := fun _ _ => Except.error "reset".toList

def wOkSynth : Str → Nat → Except Str Bytes := fun _ _ => Except.ok [7]

def wFailSynth2 : Str → Nat → Except Str Bytes :=
  fun _ _ => Except.error "quota exceeded".toList

/-- The failed record of `wJob` after a run whose synthesis always fails. -/
def wJobFailed : Job :=
  { id := ['j'], status := Status.failed, progress := 0, createdAt := 0,
    result := none, error := some jobFailedMessage }

def wStExp : ServerState := { jobs := [(['j'], wJob)], files := [audioName ['j']] }

def wJobK : Job :=
  { id := ['k'], status := Status.pending, progress := 0, createdAt := 0,
    result := none, error := none }

/-- A store holding two pending jobs, for the two-consecutive-runs witness. -/
def wSt2 : ServerState := { jobs := [(['j'], wJob), (['k'], wJobK)], files := [] }

/-- The completed record of `wJob` after a successful run on the script `"hi"`. -/
def wJobDone : Job :=
  { id := ['j'], status := Status.completed, progress := 100, createdAt := 0,
    result := some { filename := audioName ['j'], audioUrl := '/' :: audioName ['j'],
                     scriptLength := 2 },
    error := none }

/-! ## Whitespace and trim lemmas -/

theorem length_dropWhile_le (p : Char → Bool) (l : Str) :
    (l.dropWhile p).length ≤ l.length := by
  induction l with
  | nil => simp
  | cons c rest ih =>
      by_cases h : p c = true
      · simp only [List.dropWhile, h]
        exact Nat.le_succ_of_le ih
      · simp only [Bool.not_eq_true] at h
        simp [List.dropWhile, h]

theorem content_append (a b : Str) : content (a ++ b) = content a ++ content b := by
  simp [content]

theorem isSpace_space : isSpace ' ' = true := rfl

theorem content_append_space (l : Str) : content (l ++ [' ']) = content l := by
  rw [content_append]
  simp [content, isSpace_space]

theorem content_trimStart (l : Str) : content (trimStart l) = content l := by
  induction l with
  | nil => rfl
  | cons c rest ih =>
      by_cases h : isSpace c = true
      · simpa [trimStart, List.dropWhile, h, content] using ih
      · simp only [Bool.not_eq_true] at h
        simp [trimStart, List.dropWhile, h]

theorem content_reverse (l : Str) : content l.reverse = (content l).reverse := by
  simp [content, List.filter_reverse]

theorem content_trimEnd (l : Str) : content (trimEnd l) = content l := by
  have h1 : content (l.reverse.dropWhile isSpace) = content l.reverse := content_trimStart l.reverse
  calc content (trimEnd l) = (content (l.reverse.dropWhile isSpace)).reverse := content_reverse _
    _ = (content l.reverse).reverse := by rw [h1]
    _ = content l := by rw [content_reverse, List.reverse_reverse]

theorem content_jsTrim (l : Str) : content (jsTrim l) = content l := by
  rw [jsTrim, content_trimStart, content_trimEnd]

theorem content_eq_nil_iff (l : Str) : content l = [] ↔ ∀ c ∈ l, isSpace c = true := by
  simp [content, List.filter_eq_nil_iff]

theorem jsTrim_eq_nil_of_content (l : Str) (h : content l = []) : jsTrim l = [] := by
  rw [content_eq_nil_iff] at h
  have hrev : l.reverse.dropWhile isSpace = [] := by
    rw [List.dropWhile_eq_nil_iff]
    intro c hc
    exact h c (List.mem_reverse.mp hc)
  simp [jsTrim, trimStart, trimEnd, hrev]

theorem jsTrim_ne_nil_of_content (l : Str) (h : content l ≠ []) : jsTrim l ≠ [] := by
  intro hnil
  exact h (by rw [← content_jsTrim, hnil]; rfl)

theorem jsTrim_append_space (l : Str) : jsTrim (l ++ [' ']) = jsTrim l := by
  have hsp : isSpace ' ' = true := rfl
  have hte : trimEnd (l ++ [' ']) = trimEnd l := by
    simp [trimEnd, List.dropWhile, hsp]
  rw [jsTrim, jsTrim, hte]

theorem length_jsTrim_le (l : Str) : (jsTrim l).length ≤ l.length := by
  calc (jsTrim l).length ≤ (trimEnd l).length := length_dropWhile_le _ _
    _ = (l.reverse.dropWhile isSpace).length := by simp [trimEnd]
    _ ≤ l.reverse.length := length_dropWhile_le _ _
    _ = l.length := List.length_reverse l

/-! ## Sentence-scan lemmas -/

theorem scanSent_ne_nil (l : List Char) (b : Bool) (acc : List Char) (h : acc ≠ []) :
    scanSent l b acc ≠ [] := by
  induction l generalizing b acc with
  | nil => simp [scanSent, List.isEmpty_iff, h]
  | cons c rest ih =>
      cases b with
      | true =>
          by_cases hc : isTerm c = true
          · simp only [scanSent, hc, if_true]
            exact ih true (acc ++ [c]) (by simp)
          · simp only [Bool.not_eq_true] at hc
            simp [scanSent, hc]
      | false =>
          by_cases hc : isTerm c = true
          · have hacc : acc.isEmpty = false := by simpa [List.isEmpty_iff] using h
            simp only [scanSent, hc, if_true, hacc, Bool.false_eq_true, if_false]
            exact ih true (acc ++ [c]) (by simp)
          · simp only [Bool.not_eq_true] at hc
            simp only [scanSent, hc, Bool.false_eq_true, if_false]
            exact ih false (acc ++ [c]) (by simp)

theorem scanSent_flatten_of_ne_nil (l : List Char) (b : Bool) (acc : List Char) (h : acc ≠ []) :
    (scanSent l b acc).flatten = acc ++ l := by
  induction l generalizing b acc with
  | nil => simp [scanSent, List.isEmpty_iff, h]
  | cons c rest ih =>
      cases b with
      | true =>
          by_cases hc : isTerm c = true
          · simp only [scanSent, hc, if_true]
            rw [ih true (acc ++ [c]) (by simp)]
            simp
          · simp only [Bool.not_eq_true] at hc
            simp only [scanSent, hc, Bool.false_eq_true, if_false, if_true,
              List.flatten_cons]
            rw [ih false [c] (by simp)]
            simp
      | false =>
          by_cases hc : isTerm c = true
          · have hacc : acc.isEmpty = false := by simpa [List.isEmpty_iff] using h
            simp only [scanSent, hc, if_true, hacc, Bool.false_eq_true, if_false]
            rw [ih true (acc ++ [c]) (by simp)]
            simp
          · simp only [Bool.not_eq_true] at hc
            simp only [scanSent, hc, Bool.false_eq_true, if_false]
            rw [ih false (acc ++ [c]) (by simp)]
            simp

theorem scanSent_flatten (l : List Char) :
    (scanSent l false []).flatten = l.dropWhile isTerm := by
  induction l with
  | nil => simp [scanSent]
  | cons c rest ih =>
      by_cases hc : isTerm c = true
      · simp only [scanSent, hc, if_true, List.isEmpty_nil, Bool.false_eq_true, if_false,
          List.dropWhile]
        simpa [hc] using ih
      · simp only [Bool.not_eq_true] at hc
        simp only [scanSent, hc, Bool.false_eq_true, if_false, List.dropWhile,
          List.nil_append]
        rw [scanSent_flatten_of_ne_nil rest false [c] (by simp)]
        simp [hc]

theorem scanSent_eq_nil_iff (l : List Char) :
    scanSent l false [] = [] ↔ ∀ c ∈ l, isTerm c = true := by
  constructor
  · intro h
    have hdw : l.dropWhile isTerm = [] := by rw [← scanSent_flatten, h]; rfl
    exact List.dropWhile_eq_nil_iff.mp hdw
  · intro h
    induction l with
    | nil => rfl
    | cons c rest ih =>
        have hc : isTerm c = true := h c (by simp)
        simp only [scanSent, hc, if_true, List.isEmpty_nil, Bool.false_eq_true, if_false]
        exact ih (fun x hx => h x (List.mem_cons_of_mem c hx))

theorem sentencesOf_ne_nil (text : Str) : sentencesOf text ≠ [] := by
  unfold sentencesOf
  cases h : scanSent text false [] with
  | nil => simp
  | cons s rest => simp

theorem sentencesOf_flatten (text : Str) :
    (sentencesOf text).flatten =
      if text.all isTerm then text else text.dropWhile isTerm := by
  unfold sentencesOf
  cases h : scanSent text false [] with
  | nil =>
      have hall : ∀ c ∈ text, isTerm c = true := (scanSent_eq_nil_iff text).mp h
      simp [List.all_eq_true.mpr hall]
  | cons s rest =>
      have hne : ¬ (∀ c ∈ text, isTerm c = true) := by
        intro hall
        rw [(scanSent_eq_nil_iff text).mpr hall] at h
        exact List.noConfusion h
      have hall : text.all isTerm = false := by
        rw [← Bool.not_eq_true, List.all_eq_true]
        exact hne
      have hj : (s :: rest).flatten = text.dropWhile isTerm := by
        rw [← h]
        exact scanSent_flatten text
      rw [hj, hall]
      simp

/-! ## Chunk-accumulation lemmas -/

theorem content_chunkLoop_flatten (ml : Nat) (ss : List Str) (cur : Str) :
    content (chunkLoop ml ss cur).flatten = content cur ++ content ss.flatten := by
  induction ss generalizing cur with
  | nil =>
      by_cases h : (jsTrim cur).isEmpty = true
      · have hnil : jsTrim cur = [] := List.isEmpty_iff.mp h
        have hc : content cur = [] := by rw [← content_jsTrim, hnil]; rfl
        simp only [chunkLoop, h, if_true, List.flatten_nil]
        rw [hc]
        rfl
      · simp only [Bool.not_eq_true] at h
        simp only [chunkLoop, h, Bool.false_eq_true, if_false, List.flatten_cons,
          List.flatten_nil, List.append_nil]
        rw [content_jsTrim]
        simp [content]
  | cons s rest ih =>
      by_cases h : ml < cur.length + s.length
      · simp only [chunkLoop, h, if_true, List.flatten_cons]
        rw [content_append, content_jsTrim, ih (s ++ [' ']), content_append_space]
        simp [content_append]
      · simp only [chunkLoop, h, if_false]
        rw [ih (cur ++ s ++ [' ']), content_append_space, content_append]
        simp [content_append]

theorem content_chunkText_flatten (text : Str) (ml : Nat) :
    content (chunkText text ml).flatten = content (sentencesOf text).flatten := by
  rw [chunkText, content_chunkLoop_flatten]
  rfl

theorem chunkLoop_nil_mem_ne_nil (ml : Nat) (cur : Str) :
    ∀ seg ∈ chunkLoop ml [] cur, seg ≠ [] := by
  intro seg hseg
  by_cases h : (jsTrim cur).isEmpty = true
  · simp [chunkLoop, h] at hseg
  · simp only [Bool.not_eq_true] at h
    simp only [chunkLoop, h, Bool.false_eq_true, if_false, List.mem_singleton] at hseg
    rw [hseg]
    intro hn
    rw [hn] at h
    simp at h

/-- Every chunk flushed while the running buffer has non-whitespace content,
and while every non-final pending sentence has non-whitespace content, is
itself non-empty. -/
theorem chunkLoop_mem_ne_nil (ml : Nat) (ss : List Str) (cur : Str)
    (hss : ∀ s ∈ ss.dropLast, content s ≠ []) (hcur : content cur ≠ []) :
    ∀ seg ∈ chunkLoop ml ss cur, seg ≠ [] := by
  induction ss generalizing cur with
  | nil => exact chunkLoop_nil_mem_ne_nil ml cur
  | cons s rest ih =>
      intro seg hseg
      by_cases h : ml < cur.length + s.length
      · simp only [chunkLoop, h, if_true, List.mem_cons] at hseg
        rcases hseg with hseg | hseg
        · rw [hseg]
          exact jsTrim_ne_nil_of_content cur hcur
        · cases rest with
          | nil => exact chunkLoop_nil_mem_ne_nil ml (s ++ [' ']) seg hseg
          | cons r rs =>
              have hs : content s ≠ [] := by
                apply hss
                simp [List.dropLast_cons₂]
              have hcur' : content (s ++ [' ']) ≠ [] := by
                rw [content_append_space]
                exact hs
              refine ih (s ++ [' ']) ?_ hcur' seg hseg
              intro x hx
              apply hss
              cases rs with
              | nil => simp at hx
              | cons r2 rs2 =>
                  simp only [List.dropLast_cons₂, List.mem_cons]
                  right
                  simpa [List.dropLast_cons₂] using hx
      · simp only [chunkLoop, h, if_false] at hseg
        have hcur' : content (cur ++ s ++ [' ']) ≠ [] := by
          rw [content_append_space, content_append]
          intro hx
          exact hcur (List.append_eq_nil.mp hx).1
        refine ih (cur ++ s ++ [' ']) ?_ hcur' seg hseg
        intro x hx
        apply hss
        cases rest with
        | nil => simp at hx
        | cons r2 rs2 =>
            simp only [List.dropLast_cons₂, List.mem_cons]
            right
            simpa [List.dropLast_cons₂] using hx

/-- Every match except possibly the final one contains a terminal punctuation
character (the final match may be an unterminated trailing fragment). -/
theorem scanSent_dropLast_term (l : List Char) (b : Bool) (acc : List Char)
    (hacc : b = true → ∃ c ∈ acc, isTerm c = true) :
    ∀ s ∈ (scanSent l b acc).dropLast, ∃ c ∈ s, isTerm c = true := by
  induction l generalizing b acc with
  | nil =>
      intro s hs
      by_cases h : acc.isEmpty = true
      · simp [scanSent, h] at hs
      · simp only [Bool.not_eq_true] at h
        simp [scanSent, h, List.dropLast_single] at hs
  | cons c rest ih =>
      intro s hs
      cases b with
      | true =>
          by_cases hc : isTerm c = true
          · simp only [scanSent, hc, if_true] at hs
            refine ih true (acc ++ [c]) ?_ s hs
            intro _
            exact ⟨c, by simp, hc⟩
          · simp only [Bool.not_eq_true] at hc
            simp only [scanSent, hc, Bool.false_eq_true, if_false, if_true] at hs
            have hne : scanSent rest false [c] ≠ [] := scanSent_ne_nil rest false [c] (by simp)
            rcases List.exists_cons_of_ne_nil hne with ⟨y, ys, hys⟩
            rw [hys, List.dropLast_cons₂, List.mem_cons] at hs
            rcases hs with hs | hs
            · rw [hs]
              exact hacc rfl
            · refine ih false [c] (by simp) s ?_
              rw [hys]
              exact hs
      | false =>
          by_cases hc : isTerm c = true
          · by_cases he : acc.isEmpty = true
            · simp only [scanSent, hc, if_true, he] at hs
              exact ih false [] (by simp) s hs
            · simp only [Bool.not_eq_true] at he
              simp only [scanSent, hc, if_true, he, Bool.false_eq_true, if_false] at hs
              refine ih true (acc ++ [c]) ?_ s hs
              intro _
              exact ⟨c, by simp, hc⟩
          · simp only [Bool.not_eq_true] at hc
            simp only [scanSent, hc, Bool.false_eq_true, if_false] at hs
            exact ih false (acc ++ [c]) (by simp) s hs

theorem sentencesOf_dropLast_content (text : Str) :
    ∀ s ∈ (sentencesOf text).dropLast, content s ≠ [] := by
  intro s hs
  have hterm : ∃ c ∈ s, isTerm c = true := by
    unfold sentencesOf at hs
    cases h : scanSent text false [] with
    | nil => simp [h] at hs
    | cons x xs =>
        rw [h] at hs
        exact scanSent_dropLast_term text false []
          (by intro hfalse; exact absurd hfalse (by simp)) s (by rw [h]; exact hs)
  rcases hterm with ⟨c, hcs, hterm⟩
  intro hnil
  rw [content_eq_nil_iff] at hnil
  have hsp := hnil c hcs
  have hts : isTerm c = true → isSpace c = false := by
    intro ht
    have ht' : (c = '.' ∨ c = '!') ∨ c = '?' := by simpa [isTerm] using ht
    rcases ht' with (h1 | h1) | h1 <;> (rw [h1]; rfl)
  rw [hts hterm] at hsp
  exact Bool.noConfusion hsp

/-- The bound invariant of the accumulation loop: every produced chunk fits in
`ml` unless it is the trimmed form of a single oversized sentence drawn from
`S`. -/
theorem chunkLoop_bound (ml : Nat) (S : List Str) (ss : List Str) (cur : Str)
    (hss : ∀ s ∈ ss, s ∈ S)
    (hcur : (jsTrim cur).length ≤ ml ∨ ∃ s ∈ S, cur = s ++ [' '] ∧ ml < s.length) :
    ∀ seg ∈ chunkLoop ml ss cur,
      seg.length ≤ ml ∨ ∃ s ∈ S, seg = jsTrim s ∧ ml < s.length := by
  induction ss generalizing cur with
  | nil =>
      intro seg hseg
      by_cases h : (jsTrim cur).isEmpty = true
      · simp [chunkLoop, h] at hseg
      · simp only [Bool.not_eq_true] at h
        simp only [chunkLoop, h, Bool.false_eq_true, if_false, List.mem_singleton] at hseg
        rcases hcur with hc | ⟨s, hsS, hc, hml⟩
        · left
          rw [hseg]
          exact hc
        · right
          exact ⟨s, hsS, by rw [hseg, hc, jsTrim_append_space], hml⟩
  | cons s rest ih =>
      intro seg hseg
      by_cases h : ml < cur.length + s.length
      · simp only [chunkLoop, h, if_true, List.mem_cons] at hseg
        rcases hseg with hseg | hseg
        · rcases hcur with hc | ⟨t, htS, hc, hml⟩
          · left
            rw [hseg]
            exact hc
          · right
            exact ⟨t, htS, by rw [hseg, hc, jsTrim_append_space], hml⟩
        · refine ih (s ++ [' ']) (fun x hx => hss x (List.mem_cons_of_mem s hx)) ?_ seg hseg
          by_cases hsl : s.length ≤ ml
          · left
            rw [jsTrim_append_space]
            exact le_trans (length_jsTrim_le s) hsl
          · right
            exact ⟨s, hss s (by simp), rfl, by omega⟩
      · simp only [chunkLoop, h, if_false] at hseg
        refine ih (cur ++ s ++ [' ']) (fun x hx => hss x (List.mem_cons_of_mem s hx)) ?_ seg hseg
        left
        rw [jsTrim_append_space]
        calc (jsTrim (cur ++ s)).length ≤ (cur ++ s).length := length_jsTrim_le _
          _ = cur.length + s.length := List.length_append _ _
          _ ≤ ml := by omega

/-- A text with no terminal punctuation is matched as one single sentence. -/
theorem scanSent_all_nonterm (l : List Char) (acc : List Char)
    (h : ∀ c ∈ l, isTerm c = false) (hne : acc ++ l ≠ []) :
    scanSent l false acc = [acc ++ l] := by
  induction l generalizing acc with
  | nil =>
      have : acc ≠ [] := by simpa using hne
      simp [scanSent, List.isEmpty_iff, this]
  | cons c rest ih =>
      have hc : isTerm c = false := h c (by simp)
      simp only [scanSent, hc, Bool.false_eq_true, if_false]
      rw [ih (acc ++ [c]) (fun x hx => h x (List.mem_cons_of_mem c hx)) (by simp)]
      simp

/-- An empty chunk can only be the head of the output, produced because the
very first sentence already exceeds `maxLength`. -/
theorem chunkText_nil_mem (text : Str) (ml : Nat) (h : [] ∈ chunkText text ml) :
    ∃ s rest, sentencesOf text = s :: rest ∧ ml < s.length ∧
      (chunkText text ml).head? = some [] := by
  rcases List.exists_cons_of_ne_nil (sentencesOf_ne_nil text) with ⟨s, rest, hsr⟩
  by_cases hb : ml < s.length
  · refine ⟨s, rest, hsr, hb, ?_⟩
    rw [chunkText, hsr]
    simp only [chunkLoop, List.length_nil, Nat.zero_add]
    rw [if_pos hb]
    rfl
  · exfalso
    rw [chunkText, hsr] at h
    simp only [chunkLoop, List.length_nil, Nat.zero_add] at h
    rw [if_neg hb] at h
    cases rest with
    | nil => exact chunkLoop_nil_mem_ne_nil ml ([] ++ s ++ [' ']) [] h rfl
    | cons r rs =>
        have hs : content s ≠ [] := by
          apply sentencesOf_dropLast_content text
          rw [hsr, List.dropLast_cons₂]
          simp
        have hcur : content ([] ++ s ++ [' ']) ≠ [] := by
          rw [List.nil_append, content_append_space]
          exact hs
        have hss : ∀ x ∈ (r :: rs).dropLast, content x ≠ [] := by
          intro x hx
          apply sentencesOf_dropLast_content text
          rw [hsr]
          cases rs with
          | nil => simp at hx
          | cons r2 rs2 =>
              rw [List.dropLast_cons₂]
              exact List.mem_cons_of_mem s hx
        exact chunkLoop_mem_ne_nil ml (r :: rs) ([] ++ s ++ [' ']) hss hcur [] h rfl

/-- C5: every segment `chunkText` returns fits in `maxLength` unless it is the
trimmed form of a single sentence that itself exceeds `maxLength`; but the
non-emptiness half of the claim fails: when the first sentence alone exceeds
`maxLength`, the first returned segment is the empty string.  This theorem is
the amended claim. -/
theorem chunk_bounds_spec (text : Str) (ml : Nat) :
    (∀ seg ∈ chunkText text ml, ml < seg.length →
        ∃ s ∈ sentencesOf text, seg = jsTrim s ∧ ml < s.length)
  ∧ (∀ seg ∈ chunkText text ml, seg = [] →
        ∃ s rest, sentencesOf text = s :: rest ∧ ml < s.length ∧
          (chunkText text ml).head? = some []) := by
  constructor
  · intro seg hseg hlen
    unfold chunkText at hseg
    have hres := chunkLoop_bound ml (sentencesOf text) (sentencesOf text) []
      (fun s hs => hs)
      (Or.inl (by rw [show jsTrim ([] : Str) = [] from rfl]; exact Nat.zero_le ml))
      seg hseg
    rcases hres with hres | hres
    · omega
    · exact hres
  · intro seg hseg hnil
    rw [hnil] at hseg
    exact chunkText_nil_mem text ml hseg

/-- C5, counterexample to the frozen claim: with `maxLength = 3` and the
boundary-free text `"aaaa"` (first sentence longer than the bound) the
segmenter emits an empty segment. -/
theorem chunk_empty_segment_cex :
    chunkText ['a', 'a', 'a', 'a'] 3 = [[], ['a', 'a', 'a', 'a']]
    ∧ [] ∈ chunkText ['a', 'a', 'a', 'a'] 3 := by
  decide

theorem chunk_bounds_spec_witness :
    (∃ s ∈ sentencesOf ['h', 'i'], ['h', 'i'] = jsTrim s ∧ 0 < s.length)
    ∧ (∃ s rest, sentencesOf ['h', 'i'] = s :: rest ∧ 0 < s.length ∧
        (chunkText ['h', 'i'] 0).head? = some []) :=
  ⟨(chunk_bounds_spec ['h', 'i'] 0).1 ['h', 'i'] (by decide) (by decide),
   (chunk_bounds_spec ['h', 'i'] 0).2 [] (by decide) rfl⟩

/-- C6: amended claim.  Input containing no sentence-terminal punctuation, with
some non-whitespace character and fitting in `maxLength`, yields exactly one
segment, the trimmed input; any input with non-whitespace content beyond its
leading terminal-punctuation run yields at least one segment; but empty input
yields zero segments, not one. -/
theorem chunk_degenerate_spec :
    (∀ (text : Str) (ml : Nat), content (text.dropWhile isTerm) ≠ [] →
        chunkText text ml ≠ [])
  ∧ (∀ (text : Str) (ml : Nat), (∀ c ∈ text, isTerm c = false) →
        content text ≠ [] → text.length ≤ ml → chunkText text ml = [jsTrim text])
  ∧ (∀ ml : Nat, chunkText [] ml = []) := by
  refine ⟨?_, ?_, ?_⟩
  · intro text ml h hnil
    have hc := content_chunkText_flatten text ml
    rw [hnil] at hc
    rw [sentencesOf_flatten] at hc
    by_cases hall : text.all isTerm = true
    · have : text.dropWhile isTerm = [] :=
        List.dropWhile_eq_nil_iff.mpr (List.all_eq_true.mp hall)
      rw [this] at h
      exact h rfl
    · simp only [Bool.not_eq_true] at hall
      rw [hall] at hc
      simp at hc
      exact h hc.symm
  · intro text ml hterm hcont hlen
    have htne : text ≠ [] := by
      intro hx
      rw [hx] at hcont
      exact hcont rfl
    have hsent : sentencesOf text = [text] := by
      unfold sentencesOf
      rw [show scanSent text false [] = [[] ++ text] from
        scanSent_all_nonterm text [] hterm (by simpa using htne)]
      simp
    rw [chunkText, hsent]
    simp only [chunkLoop, List.length_nil, Nat.zero_add]
    rw [if_neg (by omega)]
    have hcur : content ([] ++ text ++ [' ']) ≠ [] := by
      rw [List.nil_append, content_append_space]
      exact hcont
    have hne : jsTrim ([] ++ text ++ [' ']) ≠ [] := jsTrim_ne_nil_of_content _ hcur
    have hemp : (jsTrim ([] ++ text ++ [' '])).isEmpty = false := by
      rw [← Bool.not_eq_true, List.isEmpty_iff]
      exact hne
    simp only [chunkLoop, hemp, Bool.false_eq_true, if_false]
    rw [List.nil_append, jsTrim_append_space]
  · intro ml
    have h1 : sentencesOf ([] : Str) = [[]] := rfl
    rw [chunkText, h1]
    simp only [chunkLoop, List.length_nil, Nat.zero_add]
    rw [if_neg (Nat.not_lt_zero ml)]
    have h2 : ([] : Str) ++ [] ++ [' '] = [' '] := rfl
    rw [h2]
    simp only [chunkLoop, show (jsTrim [' ']).isEmpty = true from rfl, if_true]

/-- C6, counterexample to the frozen claim: the segmenter returns zero
segments for empty input, not one segment equal to the trimmed input. -/
theorem chunk_empty_input_cex :
    chunkText [] 2000 = [] ∧ (chunkText [] 2000).length ≠ 1
    ∧ chunkText [] 2000 ≠ [jsTrim []] := by
  decide

theorem chunk_degenerate_spec_witness :
    chunkText ['h', 'i'] 2000 ≠ []
    ∧ chunkText ['h', 'i'] 2000 = [jsTrim ['h', 'i']]
    ∧ chunkText [] 5 = [] :=
  ⟨chunk_degenerate_spec.1 ['h', 'i'] 2000 (by decide),
   chunk_degenerate_spec.2.1 ['h', 'i'] 2000 (by decide) (by decide) (by decide),
   chunk_degenerate_spec.2.2 5⟩

/-- C7: amended claim.  Concatenating the returned segments reproduces the
input's non-whitespace content after discarding the input's leading run of
sentence-terminal punctuation; an input consisting entirely of terminal
punctuation is reproduced verbatim (the regex fallback).  The frozen claim
(all non-whitespace content preserved) fails on the dropped leading run. -/
theorem chunk_content_spec (text : Str) (ml : Nat) :
    content (chunkText text ml).flatten =
      if text.all isTerm then content text else content (text.dropWhile isTerm) := by
  rw [content_chunkText_flatten, sentencesOf_flatten]
  by_cases hall : text.all isTerm = true
  · simp [hall]
  · simp only [Bool.not_eq_true] at hall
    simp [hall]

/-- C7, counterexample to the frozen claim: the input `".a"` loses its leading
`'.'` (a non-whitespace character) in the segmenter's output. -/
theorem chunk_content_cex :
    content (chunkText ['.', 'a'] 2000).flatten ≠ content ['.', 'a']
    ∧ chunkText ['.', 'a'] 2000 = [['a']] := by
  decide

/-! ## Retry-loop and job-store lemmas -/

/-- Closed form of the three-attempt retry loop. -/
theorem retryAttempts_eq (f : Nat → Except Str Bytes) :
    retryAttempts f 0 3 =
      match f 1 with
      | .ok b => (some b, 1)
      | .error _ =>
        match f 2 with
        | .ok b => (some b, 2)
        | .error _ =>
          match f 3 with
          | .ok b => (some b, 3)
          | .error _ => (none, 3) := by
  cases h1 : f 1 <;> cases h2 : f 2 <;> cases h3 : f 3 <;>
    simp [retryAttempts, h1, h2, h3]

theorem find_update (l : List (Str × Job)) (id : Str) (j : Job)
    (h : (l.find? (fun p => p.1 == id)).isSome = true) :
    (l.map (fun p => if p.1 == id then (id, j) else p)).find? (fun p => p.1 == id)
      = some (id, j) := by
  induction l with
  | nil => simp [List.find?] at h
  | cons q l ih =>
      simp only [List.map_cons]
      by_cases hq : (q.1 == id) = true
      · rw [if_pos hq]
        exact List.find?_cons_of_pos _ (by simp)
      · have hq' : (q.1 == id) = false := by rwa [Bool.not_eq_true] at hq
        rw [if_neg hq]
        simp only [List.find?, hq'] at h ⊢
        exact ih h

theorem lookupJob_updateJob (st : ServerState) (id : Str) (j : Job)
    (h : (lookupJob st id).isSome = true) :
    lookupJob (updateJob st id j) id = some j := by
  have h' : (st.jobs.find? (fun p => p.1 == id)).isSome = true := by
    unfold lookupJob at h
    cases hf : st.jobs.find? (fun p => p.1 == id) with
    | none => rw [hf] at h; simp at h
    | some p => rfl
  unfold lookupJob updateJob
  rw [find_update st.jobs id j h']
  rfl

/-- C1: per-segment synthesis is attempted at most 3 times; a success ends the
attempts for that segment (every earlier attempt having failed); the retry
loop reports failure exactly when attempts 1, 2 and 3 all failed, after
exactly 3 attempts; a stub failing twice then succeeding succeeds using
exactly 3 attempts; and with an always-failing stub the job ends `failed`
after exactly 3 attempts on the first segment, no later segment attempted. -/
theorem retry_policy_spec :
    (∀ f : Nat → Except Str Bytes, (retryAttempts f 0 3).2 ≤ 3)
  ∧ (∀ (f : Nat → Except Str Bytes) (b : Bytes) (k : Nat),
        retryAttempts f 0 3 = (some b, k) →
        f k = Except.ok b ∧ 1 ≤ k ∧ k ≤ 3 ∧
          ∀ j, 1 ≤ j → j < k → ∃ e, f j = Except.error e)
  ∧ (∀ (f : Nat → Except Str Bytes) (k : Nat),
        retryAttempts f 0 3 = (none, k) →
        k = 3 ∧ (∃ e, f 1 = Except.error e) ∧ (∃ e, f 2 = Except.error e)
          ∧ ∃ e, f 3 = Except.error e)
  ∧ (∀ (f : Nat → Except Str Bytes) (b : Bytes) (e₁ e₂ : Str),
        f 1 = Except.error e₁ → f 2 = Except.error e₂ → f 3 = Except.ok b →
        retryAttempts f 0 3 = (some b, 3))
  ∧ (∀ (synth : Str → Nat → Except Str Bytes) (st : ServerState)
        (id script : Str) (j0 : Job),
        lookupJob st id = some j0 →
        (∀ t a, ∃ e, synth t a = Except.error e) →
        chunkText script 2000 ≠ [] →
        (∃ j', lookupJob (processAudioJob synth st id script).1 id = some j'
            ∧ j'.status = Status.failed)
          ∧ (processAudioJob synth st id script).2.2 = [3]) := by
  refine ⟨?_, ?_, ?_, ?_, ?_⟩
  · intro f
    rw [retryAttempts_eq]
    cases h1 : f 1 <;> cases h2 : f 2 <;> cases h3 : f 3 <;> simp
  · intro f b k h
    rw [retryAttempts_eq] at h
    cases h1 : f 1 with
    | ok b1 =>
        rw [h1] at h
        simp only [Prod.mk.injEq, Option.some.injEq] at h
        refine ⟨by rw [← h.2, h1, h.1], by omega, by omega, ?_⟩
        intro j hj1 hjk
        omega
    | error e1 =>
        rw [h1] at h
        cases h2 : f 2 with
        | ok b2 =>
            rw [h2] at h
            simp only [Prod.mk.injEq, Option.some.injEq] at h
            refine ⟨by rw [← h.2, h2, h.1], by omega, by omega, ?_⟩
            intro j hj1 hjk
            have : j = 1 := by omega
            exact ⟨e1, by rw [this, h1]⟩
        | error e2 =>
            rw [h2] at h
            cases h3 : f 3 with
            | ok b3 =>
                rw [h3] at h
                simp only [Prod.mk.injEq, Option.some.injEq] at h
                refine ⟨by rw [← h.2, h3, h.1], by omega, by omega, ?_⟩
                intro j hj1 hjk
                have : j = 1 ∨ j = 2 := by omega
                rcases this with hj | hj
                · exact ⟨e1, by rw [hj, h1]⟩
                · exact ⟨e2, by rw [hj, h2]⟩
            | error e3 =>
                rw [h3] at h
                simp at h
  · intro f k h
    rw [retryAttempts_eq] at h
    cases h1 : f 1 with
    | ok b1 => rw [h1] at h; simp at h
    | error e1 =>
        rw [h1] at h
        cases h2 : f 2 with
        | ok b2 => rw [h2] at h; simp at h
        | error e2 =>
            rw [h2] at h
            cases h3 : f 3 with
            | ok b3 => rw [h3] at h; simp at h
            | error e3 =>
                rw [h3] at h
                simp only [Prod.mk.injEq] at h
                exact ⟨h.2.symm, ⟨e1, rfl⟩, ⟨e2, rfl⟩, ⟨e3, rfl⟩⟩
  · intro f b e₁ e₂ h1 h2 h3
    rw [retryAttempts_eq, h1, h2, h3]
  · intro synth st id script j0 hj hfail hchunks
    rcases List.exists_cons_of_ne_nil hchunks with ⟨c, rest, hcr⟩
    have hretry : retryAttempts (synth c) 0 3 = (none, 3) := by
      rcases hfail c 1 with ⟨e1, he1⟩
      rcases hfail c 2 with ⟨e2, he2⟩
      rcases hfail c 3 with ⟨e3, he3⟩
      rw [retryAttempts_eq, he1, he2, he3]
    have hseg : segmentLoop synth (chunkText script 2000).length (chunkText script 2000) 0
        = (none, [JobEvent.progressSet (jsRound (100 * 0) (chunkText script 2000).length)],
           [3]) := by
      rw [hcr]
      simp only [segmentLoop, hretry]
    have hres : processAudioJob synth st id script =
        (updateJob (updateJob st id { j0 with status := Status.processing }) id
           { { j0 with status := Status.processing } with
               status := Status.failed, error := some jobFailedMessage },
         JobEvent.statusSet Status.processing
           :: [JobEvent.progressSet (jsRound (100 * 0) (chunkText script 2000).length)]
           ++ [JobEvent.statusSet Status.failed, JobEvent.errorSet jobFailedMessage],
         [3]) := by
      simp only [processAudioJob, hj, hseg]
    have h1 : (lookupJob st id).isSome = true := by rw [hj]; rfl
    have h2 : lookupJob (updateJob st id { j0 with status := Status.processing }) id
        = some { j0 with status := Status.processing } :=
      lookupJob_updateJob st id _ h1
    have h3 : (lookupJob (updateJob st id { j0 with status := Status.processing }) id).isSome
        = true := by rw [h2]; rfl
    constructor
    · rw [hres]
      exact ⟨_, lookupJob_updateJob _ id _ h3, rfl⟩
    · rw [hres]

theorem retry_policy_spec_witness :
    ((retryAttempts (fun _ => Except.error "e".toList) 0 3).2 ≤ 3)
    ∧ (retryAttempts
        (fun a => if a ≤ 2 then Except.error "boom".toList else Except.ok [1]) 0 3
        = (some [1], 3))
    ∧ ((∃ j', lookupJob (processAudioJob wFailSynth wSt ['j'] ['h', 'i']).1 ['j'] = some j'
            ∧ j'.status = Status.failed)
        ∧ (processAudioJob wFailSynth wSt ['j'] ['h', 'i']).2.2 = [3]) :=
  ⟨retry_policy_spec.1 _,
   retry_policy_spec.2.2.2.1 _ [1] "boom".toList "boom".toList rfl rfl rfl,
   retry_policy_spec.2.2.2.2 wFailSynth wSt ['j'] ['h', 'i'] wJob rfl
     (fun _ _ => ⟨"reset".toList, rfl⟩) (by decide)⟩

/-! ## Success-path lemmas -/

theorem updateJob_files (st : ServerState) (id : Str) (j : Job) :
    (updateJob st id j).files = st.files := rfl

theorem isPrefixOf_append_self (l t : Str) : l.isPrefixOf (l ++ t) = true := by
  induction l with
  | nil => simp [List.isPrefixOf]
  | cons a as ih => simp [List.isPrefixOf, ih]

theorem isSuffixOf_append_self (l t : Str) : l.isSuffixOf (t ++ l) = true := by
  unfold List.isSuffixOf
  rw [List.reverse_append]
  exact isPrefixOf_append_self l.reverse t.reverse

theorem isGeneratedName_audioName (id : Str) : isGeneratedName (audioName id) = true := by
  unfold isGeneratedName audioName
  have h1 : "audio-".toList.isPrefixOf ("audio-".toList ++ id ++ ".mp3".toList) = true := by
    rw [List.append_assoc]
    exact isPrefixOf_append_self _ _
  have h2 : ".mp3".toList.isSuffixOf ("audio-".toList ++ id ++ ".mp3".toList) = true :=
    isSuffixOf_append_self _ _
  rw [h1, h2]
  rfl

theorem filter_generated_of_kept (l : List Str) (id : Str) :
    ((l.filter (fun f => !isGeneratedName f)) ++ [audioName id]).filter
      (fun f => isGeneratedName f) = [audioName id] := by
  rw [List.filter_append]
  have h1 : (l.filter (fun f => !isGeneratedName f)).filter (fun f => isGeneratedName f)
      = [] := by
    induction l with
    | nil => rfl
    | cons x xs ih =>
        by_cases hx : isGeneratedName x = true
        · simp [List.filter, hx, ih]
        · simp only [Bool.not_eq_true] at hx
          simp [List.filter, hx, ih]
  rw [h1]
  simp [List.filter, isGeneratedName_audioName]

/-- When every segment synthesizes at the first attempt, the segment loop
succeeds and emits exactly the per-segment progress events. -/
theorem segmentLoop_ok (synth : Str → Nat → Except Str Bytes) (n : Nat)
    (hs : ∀ t, ∃ b, synth t 1 = Except.ok b) :
    ∀ (chunks : List Str) (i : Nat), ∃ bs log,
      segmentLoop synth n chunks i =
        (some bs,
         (List.range' i chunks.length).map
           (fun j => JobEvent.progressSet (jsRound (100 * j) n)),
         log) := by
  intro chunks
  induction chunks with
  | nil =>
      intro i
      exact ⟨[], [], by simp [segmentLoop]⟩
  | cons c rest ih =>
      intro i
      rcases hs c with ⟨b, hb⟩
      have hret : retryAttempts (synth c) 0 3 = (some b, 1) := by
        rw [retryAttempts_eq, hb]
      rcases ih (i + 1) with ⟨bs, log, hrec⟩
      refine ⟨b :: bs, 1 :: log, ?_⟩
      simp only [segmentLoop, hret, hrec, List.length_cons, List.range'_succ, List.map_cons]

/-- The full success path of `processAudioJob`, as one equation: old
generated-class artifacts are deleted, the new artifact is written, the job is
completed, in that order of events. -/
theorem processAudioJob_ok (synth : Str → Nat → Except Str Bytes) (st : ServerState)
    (id script : Str) (j0 : Job) (hj : lookupJob st id = some j0)
    (hs : ∀ t, ∃ b, synth t 1 = Except.ok b) :
    ∃ log, processAudioJob synth st id script =
      (updateJob
        { updateJob st id { j0 with status := Status.processing } with
            files := st.files.filter (fun f => !isGeneratedName f) ++ [audioName id] }
        id
        { { j0 with status := Status.processing } with
            status := Status.completed
            progress := 100
            result := some { filename := audioName id, audioUrl := '/' :: audioName id,
                             scriptLength := script.length } },
       JobEvent.statusSet Status.processing
         :: ((List.range' 0 (chunkText script 2000).length).map
              (fun j => JobEvent.progressSet (jsRound (100 * j) (chunkText script 2000).length)))
         ++ (st.files.filter (fun f => isGeneratedName f)).map JobEvent.fileDeleted
         ++ [JobEvent.fileWritten (audioName id), JobEvent.statusSet Status.completed,
             JobEvent.progressSet 100],
       log) := by
  rcases segmentLoop_ok synth (chunkText script 2000).length hs (chunkText script 2000) 0
    with ⟨bs, log, hseg⟩
  refine ⟨log, ?_⟩
  simp only [processAudioJob, hj, hseg, updateJob_files]

theorem progressValues_append (a b : List JobEvent) :
    progressValues (a ++ b) = progressValues a ++ progressValues b := by
  simp [progressValues]

theorem progressValues_map_progressSet (xs : List Nat) (g : Nat → Nat) :
    progressValues (xs.map (fun j => JobEvent.progressSet (g j))) = xs.map g := by
  induction xs with
  | nil => rfl
  | cons x xs ih => simp [progressValues, List.filterMap] at ih ⊢; exact ih

theorem progressValues_map_fileDeleted (fs : List Str) :
    progressValues (fs.map JobEvent.fileDeleted) = [] := by
  induction fs with
  | nil => rfl
  | cons f fs ih => simpa [progressValues, List.filterMap] using ih

theorem progressValues_statusSet_cons (s : Status) (l : List JobEvent) :
    progressValues (JobEvent.statusSet s :: l) = progressValues l := by
  simp [progressValues, List.filterMap_cons]

/-- C2: on the success path the side effects happen in the order (1) delete
every existing generated-class artifact, (2) write `audio-<jobId>.mp3`,
(3) set the status to `completed`; and after two consecutive successful jobs
exactly one generated artifact remains, named after the most recent job. -/
theorem success_order_and_artifact_invariant
    (synth₁ synth₂ : Str → Nat → Except Str Bytes) (st : ServerState)
    (id₁ id₂ script₁ script₂ : Str) (j₁ j₂ : Job)
    (hj₁ : lookupJob st id₁ = some j₁)
    (hs₁ : ∀ t, ∃ b, synth₁ t 1 = Except.ok b)
    (hj₂ : lookupJob (processAudioJob synth₁ st id₁ script₁).1 id₂ = some j₂)
    (hs₂ : ∀ t, ∃ b, synth₂ t 1 = Except.ok b) :
    (∃ pEvs,
      (processAudioJob synth₁ st id₁ script₁).2.1 =
        JobEvent.statusSet Status.processing :: pEvs
          ++ (st.files.filter (fun f => isGeneratedName f)).map JobEvent.fileDeleted
          ++ [JobEvent.fileWritten (audioName id₁), JobEvent.statusSet Status.completed,
              JobEvent.progressSet 100]
      ∧ ∀ e ∈ pEvs, ∃ p, e = JobEvent.progressSet p)
  ∧ ((processAudioJob synth₂ (processAudioJob synth₁ st id₁ script₁).1 id₂ script₂).1.files.filter
      (fun f => isGeneratedName f)) = [audioName id₂] := by
  rcases processAudioJob_ok synth₁ st id₁ script₁ j₁ hj₁ hs₁ with ⟨log₁, hrun₁⟩
  rcases processAudioJob_ok synth₂ (processAudioJob synth₁ st id₁ script₁).1 id₂ script₂ j₂
    hj₂ hs₂ with ⟨log₂, hrun₂⟩
  constructor
  · refine ⟨(List.range' 0 (chunkText script₁ 2000).length).map
      (fun j => JobEvent.progressSet (jsRound (100 * j) (chunkText script₁ 2000).length)), ?_, ?_⟩
    · rw [hrun₁]
    · intro e he
      rcases List.mem_map.mp he with ⟨j, _, hj⟩
      exact ⟨_, hj.symm⟩
  · rw [hrun₂, hrun₁]
    show ((st.files.filter (fun f => !isGeneratedName f) ++ [audioName id₁]).filter
        (fun f => !isGeneratedName f) ++ [audioName id₂]).filter (fun f => isGeneratedName f)
      = [audioName id₂]
    exact filter_generated_of_kept _ id₂

/-- C3, counterexample to the frozen claim: the progress set before segment 2
of 3 is `Math.round(2/3*100) = 67`, not `floor(100*2/3) = 66`. -/
theorem progress_round_cex :
    (segmentLoop wOkSynth 3 [['a'], ['b'], ['c']] 0).2.1 =
      [JobEvent.progressSet 0, JobEvent.progressSet 33, JobEvent.progressSet 67]
    ∧ 100 * 2 / 3 = 66 ∧ jsRound (100 * 2) 3 = 67 := by
  decide

/-- C3: amended claim.  Before segment `i` of `n` the progress equals
`Math.round(100*i/n)` (round half up, not floor); after the loop it is
explicitly set to 100.  For `n ≤ 199` every in-loop value is below 100, so 100
is reached only by the explicit final assignment; for larger `n` the rounded
value itself can reach 100 before the loop ends. -/
theorem progress_round_spec (synth : Str → Nat → Except Str Bytes) (st : ServerState)
    (id script : Str) (j0 : Job) (hj : lookupJob st id = some j0)
    (hs : ∀ t, ∃ b, synth t 1 = Except.ok b) :
    progressValues (processAudioJob synth st id script).2.1 =
      ((List.range (chunkText script 2000).length).map
        (fun i => jsRound (100 * i) (chunkText script 2000).length)) ++ [100]
  ∧ ((chunkText script 2000).length ≤ 199 →
      ∀ i ∈ List.range (chunkText script 2000).length,
        jsRound (100 * i) (chunkText script 2000).length < 100) := by
  constructor
  · rcases processAudioJob_ok synth st id script j0 hj hs with ⟨log, hrun⟩
    simp only [hrun]
    rw [progressValues_append, progressValues_append, progressValues_statusSet_cons,
      progressValues_map_progressSet, progressValues_map_fileDeleted]
    simp [progressValues, List.filterMap_cons, List.range_eq_range']
  · intro hn i hi
    have hilt : i < (chunkText script 2000).length := List.mem_range.mp hi
    unfold jsRound
    have hpos : 0 < 2 * (chunkText script 2000).length := by omega
    rw [Nat.div_lt_iff_lt_mul hpos]
    omega

theorem progress_round_spec_witness :
    progressValues (processAudioJob wOkSynth wSt ['j'] ['h', 'i']).2.1 =
      ((List.range (chunkText ['h', 'i'] 2000).length).map
        (fun i => jsRound (100 * i) (chunkText ['h', 'i'] 2000).length)) ++ [100]
  ∧ ((chunkText ['h', 'i'] 2000).length ≤ 199 →
      ∀ i ∈ List.range (chunkText ['h', 'i'] 2000).length,
        jsRound (100 * i) (chunkText ['h', 'i'] 2000).length < 100) :=
  progress_round_spec wOkSynth wSt ['j'] ['h', 'i'] wJob rfl (fun _ => ⟨[7], rfl⟩)

theorem success_order_and_artifact_invariant_witness :
    (∃ pEvs,
      (processAudioJob wOkSynth wSt2 ['j'] ['h', 'i']).2.1 =
        JobEvent.statusSet Status.processing :: pEvs
          ++ (wSt2.files.filter (fun f => isGeneratedName f)).map JobEvent.fileDeleted
          ++ [JobEvent.fileWritten (audioName ['j']), JobEvent.statusSet Status.completed,
              JobEvent.progressSet 100]
      ∧ ∀ e ∈ pEvs, ∃ p, e = JobEvent.progressSet p)
  ∧ ((processAudioJob wOkSynth (processAudioJob wOkSynth wSt2 ['j'] ['h', 'i']).1 ['k']
        ['o', 'k']).1.files.filter (fun f => isGeneratedName f)) = [audioName ['k']] :=
  success_order_and_artifact_invariant wOkSynth wOkSynth wSt2 ['j'] ['k'] ['h', 'i']
    ['o', 'k'] wJob wJobK rfl (fun _ => ⟨[7], rfl⟩) (by decide) (fun _ => ⟨[7], rfl⟩)

/-! ## Failure-path, reclaimer and boundary lemmas -/

/-- On any run that leaves the job `failed`, the stored `error` is the fixed
user-safe message, independent of the provider's error details. -/
theorem processAudioJob_failed_error (synth : Str → Nat → Except Str Bytes)
    (st : ServerState) (id script : Str) (j0 j' : Job)
    (hj : lookupJob st id = some j0)
    (hlook : lookupJob (processAudioJob synth st id script).1 id = some j')
    (hfailed : j'.status = Status.failed) :
    j'.error = some jobFailedMessage := by
  have h1 : (lookupJob st id).isSome = true := by rw [hj]; rfl
  have h2 := lookupJob_updateJob st id { j0 with status := Status.processing } h1
  have h2s : (lookupJob (updateJob st id { j0 with status := Status.processing }) id).isSome
      = true := by rw [h2]; rfl
  rcases hseg : segmentLoop synth (chunkText script 2000).length (chunkText script 2000) 0
    with ⟨o, evs, log⟩
  cases o with
  | some bufs =>
      have hrun : (processAudioJob synth st id script).1 =
          updateJob
            { updateJob st id { j0 with status := Status.processing } with
                files := st.files.filter (fun f => !isGeneratedName f) ++ [audioName id] }
            id
            { { j0 with status := Status.processing } with
                status := Status.completed
                progress := 100
                result := some { filename := audioName id, audioUrl := '/' :: audioName id,
                                 scriptLength := script.length } } := by
        simp only [processAudioJob, hj, hseg, updateJob_files]
      have h3s : (lookupJob
          { updateJob st id { j0 with status := Status.processing } with
              files := st.files.filter (fun f => !isGeneratedName f) ++ [audioName id] }
          id).isSome = true := h2s
      rw [hrun] at hlook
      rw [lookupJob_updateJob _ id _ h3s] at hlook
      have hXj := Option.some.inj hlook
      rw [← hXj] at hfailed
      simp at hfailed
  | none =>
      have hrun : (processAudioJob synth st id script).1 =
          updateJob (updateJob st id { j0 with status := Status.processing }) id
            { { j0 with status := Status.processing } with
                status := Status.failed, error := some jobFailedMessage } := by
        simp only [processAudioJob, hj, hseg]
      rw [hrun] at hlook
      rw [lookupJob_updateJob _ id _ h2s] at hlook
      have hXj := Option.some.inj hlook
      rw [← hXj]

/-- C8: a job that ends `failed` carries the fixed user-safe error message,
the same regardless of the provider errors encountered: two runs failing with
different provider error details expose identical caller-visible messages. -/
theorem failed_error_message_uniform :
    (∀ (synth : Str → Nat → Except Str Bytes) (st : ServerState) (id script : Str)
        (j0 j' : Job), lookupJob st id = some j0 →
        lookupJob (processAudioJob synth st id script).1 id = some j' →
        j'.status = Status.failed → j'.error = some jobFailedMessage)
  ∧ (∀ (synth₁ synth₂ : Str → Nat → Except Str Bytes) (st₁ st₂ : ServerState)
        (id₁ id₂ script₁ script₂ : Str) (ja jb ja' jb' : Job),
        lookupJob st₁ id₁ = some ja → lookupJob st₂ id₂ = some jb →
        lookupJob (processAudioJob synth₁ st₁ id₁ script₁).1 id₁ = some ja' →
        lookupJob (processAudioJob synth₂ st₂ id₂ script₂).1 id₂ = some jb' →
        ja'.status = Status.failed → jb'.status = Status.failed →
        ja'.error = jb'.error) := by
  constructor
  · exact fun synth st id script j0 j' hj hlook hf =>
      processAudioJob_failed_error synth st id script j0 j' hj hlook hf
  · intro synth₁ synth₂ st₁ st₂ id₁ id₂ script₁ script₂ ja jb ja' jb' hja hjb hla hlb hfa hfb
    rw [processAudioJob_failed_error synth₁ st₁ id₁ script₁ ja ja' hja hla hfa,
      processAudioJob_failed_error synth₂ st₂ id₂ script₂ jb jb' hjb hlb hfb]

theorem failed_error_message_uniform_witness :
    wJobFailed.error = some jobFailedMessage
    ∧ wJobFailed.error = wJobFailed.error :=
  ⟨failed_error_message_uniform.1 wFailSynth wSt ['j'] ['h', 'i'] wJob wJobFailed rfl
      (by decide) rfl,
   failed_error_message_uniform.2 wFailSynth wFailSynth2 wSt wSt ['j'] ['j'] ['h', 'i']
      ['h', 'i'] wJob wJob wJobFailed wJobFailed rfl rfl (by decide) (by decide) rfl rfl⟩

theorem assoc_key_unique (l : List (Str × Job)) (h : (l.map Prod.fst).Nodup) (a : Str)
    (b c : Job) (hb : (a, b) ∈ l) (hc : (a, c) ∈ l) : b = c := by
  induction l with
  | nil => cases hb
  | cons q rest ih =>
      rw [List.map_cons, List.nodup_cons] at h
      rcases List.mem_cons.mp hb with hqb | hb'
      · rcases List.mem_cons.mp hc with hqc | hc'
        · rw [← hqb] at hqc
          exact ((Prod.mk.injEq a c a b).mp hqc).2.symm
        · exfalso
          apply h.1
          rw [← hqb]
          exact List.mem_map.mpr ⟨(a, c), hc', rfl⟩
      · rcases List.mem_cons.mp hc with hqc | hc'
        · exfalso
          apply h.1
          rw [← hqc]
          exact List.mem_map.mpr ⟨(a, b), hb', rfl⟩
        · exact ih h.2 hb' hc'

/-- C4: after a `cleanup` sweep at time `now`, every job record older than the
one-hour TTL is gone from the store (whatever its status was) and its
`audio-<id>.mp3` artifact is gone from the directory. -/
theorem cleanup_evicts_expired (st : ServerState) (now : Nat) (id : Str) (j : Job)
    (hmem : (id, j) ∈ st.jobs) (hexp : ONE_HOUR < now - j.createdAt)
    (hkeys : (st.jobs.map Prod.fst).Nodup) :
    lookupJob (cleanup st now) id = none
    ∧ audioName id ∉ (cleanup st now).files := by
  constructor
  · have hfind : (st.jobs.filter
        (fun p => !decide (ONE_HOUR < now - p.2.createdAt))).find?
          (fun p => p.1 == id) = none := by
      rw [List.find?_eq_none]
      intro q hq
      rw [List.mem_filter] at hq
      intro hbeq
      have hq1 : q.1 = id := by simpa using hbeq
      have hqmem : (id, q.2) ∈ st.jobs := by
        rw [← hq1]
        simpa using hq.1
      have hq2j : q.2 = j := assoc_key_unique st.jobs hkeys id q.2 j hqmem hmem
      have hkeep := hq.2
      rw [hq2j] at hkeep
      rw [decide_eq_true hexp] at hkeep
      simp at hkeep
    show ((st.jobs.filter (fun p => !decide (ONE_HOUR < now - p.2.createdAt))).find?
        (fun p => p.1 == id)).map (·.2) = none
    rw [hfind]
    rfl
  · intro hmemfile
    have hthis : audioName id ∈ st.files.filter
        (fun f => !((st.jobs.filter (fun p => decide (ONE_HOUR < now - p.2.createdAt))).map
          (·.1)).any (fun i => f == audioName i)) := hmemfile
    rw [List.mem_filter] at hthis
    have hany : (((st.jobs.filter (fun p => decide (ONE_HOUR < now - p.2.createdAt))).map
        (·.1)).any (fun i => audioName id == audioName i)) = true := by
      apply List.any_eq_true.mpr
      refine ⟨id, ?_, by simp⟩
      exact List.mem_map.mpr
        ⟨(id, j), List.mem_filter.mpr ⟨hmem, decide_eq_true hexp⟩, rfl⟩
    rw [hany] at hthis
    simp at hthis

theorem cleanup_evicts_expired_witness :
    lookupJob (cleanup wStExp 10000000) ['j'] = none
    ∧ audioName ['j'] ∉ (cleanup wStExp 10000000).files :=
  cleanup_evicts_expired wStExp 10000000 ['j'] wJob (by decide) (by decide) (by decide)

/-- C9: a requested filename containing `..` is answered `NotFound` with no
filesystem existence check performed at all (the guard short-circuits before
`fs.existsSync`), for every state of the filesystem. -/
theorem download_traversal_guard (fsExists : Str → Bool) (filename : Str)
    (h : strIncludes "..".toList filename = true) :
    downloadRoute fsExists filename = (DlResponse.notFound, []) := by
  have h' : strIncludes ['.', '.'] filename = true := h
  simp [downloadRoute, h']

theorem download_traversal_guard_witness :
    downloadRoute (fun _ => true) "../secret".toList = (DlResponse.notFound, []) :=
  download_traversal_guard (fun _ => true) "../secret".toList (by decide)

/-- C10: an empty-string script is rejected synchronously with the same
`Script required` error as an absent script, leaving the job store unchanged;
consequently every job that is actually registered has a non-empty script, so
the segmenter's empty-input case is unreachable through `/start-generation`. -/
theorem start_generation_empty_script (st : ServerState) (voice : Option Str)
    (id : Str) (now : Nat) :
    startGeneration st (some []) voice id now
      = (StartResponse.badRequest scriptRequiredMessage, st)
  ∧ startGeneration st none voice id now
      = (StartResponse.badRequest scriptRequiredMessage, st)
  ∧ (∀ (script : Option Str) (jid : Str) (st' : ServerState),
      startGeneration st script voice id now = (StartResponse.ok jid, st') →
      ∃ s, script = some s ∧ s ≠ []) := by
  refine ⟨rfl, rfl, ?_⟩
  intro script jid st' h
  cases script with
  | none => simp [startGeneration] at h
  | some s =>
      cases s with
      | nil => simp [startGeneration] at h
      | cons c cs => exact ⟨c :: cs, rfl, by simp⟩

theorem start_generation_empty_script_witness :
    startGeneration wSt (some []) none ['n'] 0
      = (StartResponse.badRequest scriptRequiredMessage, wSt)
  ∧ startGeneration wSt none none ['n'] 0
      = (StartResponse.badRequest scriptRequiredMessage, wSt)
  ∧ (∃ s, (some ['h', 'i'] : Option Str) = some s ∧ s ≠ []) :=
  ⟨(start_generation_empty_script wSt none ['n'] 0).1,
   (start_generation_empty_script wSt none ['n'] 0).2.1,
   (start_generation_empty_script wSt none ['n'] 0).2.2 (some ['h', 'i']) ['n']
     { jobs := wSt.jobs ++ [(['n'],
         { id := ['n'], status := Status.pending, progress := 0, createdAt := 0,
           result := none, error := none })], files := wSt.files } rfl⟩

end Manhwa
